import Mathlib

/-!
Shallow embedding of the `iniparserpp` repository
(`src/include/iniConfig.hpp`, `src/src/iniConfig.cpp`).

Strings are modelled as lists of characters (`Str`),
`std::unordered_map` as an association list with overwriting insertion,
and the input file as an optional character list: `none` models a file
that cannot be opened, `some text` a readable file with that content.
`std::getline` is modelled by `getLines`, which splits the content at
newline characters and yields no trailing empty line for content ending
in a newline.
-/

/-- Character strings, modelling `std::string`. -/
abbrev Str := List Char

/-- `std::isspace` on ASCII, as used by `trim` in iniConfig.cpp. -/
def isSpaceChar (c : Char) : Bool :=
  c == ' ' || c == '\t' || c == '\n' || c == '\x0b' || c == '\x0c' || c == '\r'

/-- `trim` from iniConfig.cpp: drop whitespace from both ends. -/
def trim (s : Str) : Str :=
  ((s.dropWhile isSpaceChar).reverse.dropWhile isSpaceChar).reverse

/-- `std::string::find` for a single character: index of its first
occurrence, `none` for `npos`. -/
def findChar (t : Char) : Str → Option Nat
  | [] => none
  | c :: rest => if c = t then some 0 else (findChar t rest).map (· + 1)

/-- Lookup in an association-list model of `std::unordered_map`. -/
def mapGet {α : Type} : List (Str × α) → Str → Option α
  | [], _ => none
  | (k', v) :: rest, k => if k' = k then some v else mapGet rest k

/-- Overwriting insertion, modelling `m[k] = v` on `std::unordered_map`. -/
def mapSet {α : Type} : List (Str × α) → Str → α → List (Str × α)
  | [], k, v => [(k, v)]
  | (k', v') :: rest, k, v =>
    if k' = k then (k, v) :: rest else (k', v') :: mapSet rest k v

/-- The inner map of one section: key to value. -/
abbrev Bucket := List (Str × Str)

/-- `data_`: section name to bucket. -/
abbrev Data := List (Str × Bucket)

/-- `data_[current_section][key] = val`: `operator[]` default-constructs the
bucket when the section is absent, then the key is overwritten in it. -/
def dataSet (d : Data) (sec key v : Str) : Data :=
  mapSet d sec (mapSet ((mapGet d sec).getD []) key v)

/-- The comment-scan loop of `loadFromFile`: the earlier of `val.find(';')`
and `val.find('#')`, `none` when neither occurs. -/
def commentPos (val : Str) : Option Nat :=
  match findChar ';' val, findChar '#' val with
  | some p, some q => some (min p q)
  | some p, none => some p
  | none, some q => some q
  | none, none => none

/-- Value extraction of `loadFromFile` applied to the text after the first
`=`: trim, truncate at the comment position when present, trim again. -/
def parseVal (after : Str) : Str :=
  let val := trim after
  match commentPos val with
  | some cpos => trim (val.take cpos)
  | none => val

/-- One iteration of the `while (std::getline ...)` loop body, acting on the
pair (current_section, data_). -/
def processLine (st : Str × Data) (line : Str) : Str × Data :=
  match trim line with
  | [] => st
  | c :: rest =>
    if c = ';' ∨ c = '#' then st
    else if c = '[' ∧ (c :: rest).getLast? = some ']' then
      (trim rest.dropLast, st.2)
    else
      match findChar '=' (c :: rest) with
      | none => st
      | some eq =>
        (st.1, dataSet st.2 st.1 (trim ((c :: rest).take eq))
          (parseVal ((c :: rest).drop (eq + 1))))

/-- Accumulator-based splitting of file content into `std::getline` lines. -/
def getLinesAux : Str → Str → List Str
  | acc, [] => [acc.reverse]
  | acc, c :: rest =>
    if c = '\n' then
      match rest with
      | [] => [acc.reverse]
      | _ :: _ => acc.reverse :: getLinesAux [] rest
    else
      getLinesAux (c :: acc) rest

/-- The sequence of lines `std::getline` yields on the given content. -/
def getLines : Str → List Str
  | [] => []
  | s => getLinesAux [] s

/-- The error message built at iniConfig.cpp line 43. -/
def errorMessage (path : Str) : Str :=
  String.toList "Could not open config file: " ++ path

/-- `Config` from iniConfig.hpp: the parsed mapping. -/
structure Config where
  data : Data

/-- `Config::loadFromFile`: clear `data_`, attempt to open the source, on
failure set `err` and return false, otherwise process the lines and return
true. The result is the updated config, the updated `err`, and the return
value. -/
def Config.loadFromFile (cfg : Config) (path : Str) (content : Option Str)
    (err : Str) : Config × Str × Bool :=
  let cleared : Config := { cfg with data := [] }
  match content with
  | none => (cleared, errorMessage path, false)
  | some text =>
    ({ cleared with data := ((getLines text).foldl processLine ([], cleared.data)).2 },
      err, true)

/-- `Config::get`: two lookups, defaulting when either misses. -/
def Config.get (cfg : Config) (sec key default_val : Str) : Str :=
  match mapGet cfg.data sec with
  | none => default_val
  | some bucket =>
    match mapGet bucket key with
    | none => default_val
    | some v => v

/-- The spec's wording of the inline-comment scan: the earliest position in
the value holding either `;` or `#`. Stated from the spec, to be compared
with `commentPos`. -/
def firstSemiHash : Str → Option Nat
  | [] => none
  | c :: rest =>
    if c = ';' ∨ c = '#' then some 0 else (firstSemiHash rest).map (· + 1)

theorem mapGet_mapSet_self {α : Type} (m : List (Str × α)) (k : Str) (v : α) :
    mapGet (mapSet m k v) k = some v := by
  induction m with
  | nil => simp [mapGet, mapSet]
  | cons p rest ih =>
    obtain ⟨k', v'⟩ := p
    by_cases h : k' = k
    · simp [mapSet, mapGet, h]
    · simp [mapSet, mapGet, h, ih]

theorem mapGet_mapSet_ne {α : Type} (m : List (Str × α)) (k k' : Str) (v : α)
    (h : k' ≠ k) : mapGet (mapSet m k v) k' = mapGet m k' := by
  have h' : k ≠ k' := Ne.symm h
  induction m with
  | nil => simp [mapGet, mapSet, h']
  | cons p rest ih =>
    obtain ⟨k₀, v₀⟩ := p
    by_cases h₀ : k₀ = k
    · subst h₀
      simp [mapSet, mapGet, h']
    · simp only [mapSet, if_neg h₀, mapGet]
      by_cases h₁ : k₀ = k'
      · simp [h₁]
      · simp [h₁, ih]

theorem get_dataSet_self (d : Data) (sec key v dflt : Str) :
    (Config.mk (dataSet d sec key v)).get sec key dflt = v := by
  simp [Config.get, dataSet, mapGet_mapSet_self]

theorem get_dataSet_ne (d : Data) (sec key v sec' key' dflt : Str)
    (h : sec' ≠ sec ∨ key' ≠ key) :
    (Config.mk (dataSet d sec key v)).get sec' key' dflt
      = (Config.mk d).get sec' key' dflt := by
  rcases h with h | h
  · simp [Config.get, dataSet, mapGet_mapSet_ne _ _ _ _ h]
  · by_cases hs : sec' = sec
    · subst hs
      simp only [Config.get, dataSet, mapGet_mapSet_self,
        mapGet_mapSet_ne _ _ _ _ h]
      cases hb : mapGet d sec' with
      | none => simp [hb, mapGet]
      | some bucket => simp [hb]
    · simp [Config.get, dataSet, mapGet_mapSet_ne _ _ _ _ hs]

theorem commentPos_eq_firstSemiHash (v : Str) :
    commentPos v = firstSemiHash v := by
  induction v with
  | nil => rfl
  | cons c rest ih =>
    by_cases hs : c = ';'
    · subst hs
      cases hq : findChar '#' rest <;>
        simp [commentPos, findChar, firstSemiHash, hq]
    · by_cases hh : c = '#'
      · subst hh
        cases hp : findChar ';' rest <;>
          simp [commentPos, findChar, firstSemiHash, hp, hs]
      · rw [firstSemiHash, if_neg (by simp [hs, hh]), ← ih]
        simp only [commentPos, findChar, if_neg hs, if_neg hh]
        cases hp : findChar ';' rest <;> cases hq : findChar '#' rest <;>
          simp [hp, hq, Nat.succ_min_succ]

theorem processLine_keyvalue (cur : Str) (d : Data) (line : Str) (c : Char)
    (rest : Str) (eq : Nat)
    (hline : trim line = c :: rest)
    (hcomment : ¬(c = ';' ∨ c = '#'))
    (hheader : ¬(c = '[' ∧ (c :: rest).getLast? = some ']'))
    (heq : findChar '=' (c :: rest) = some eq) :
    processLine (cur, d) line
      = (cur, dataSet d cur (trim ((c :: rest).take eq))
          (parseVal ((c :: rest).drop (eq + 1)))) := by
  simp only [processLine, hline, if_neg hcomment, if_neg hheader, heq]

theorem processLine_header (cur : Str) (d : Data) (line : Str) (rest : Str)
    (hline : trim line = '[' :: rest)
    (hlast : ('[' :: rest).getLast? = some ']') :
    processLine (cur, d) line = (trim rest.dropLast, d) := by
  have hcomment : ¬('[' = ';' ∨ '[' = '#') := by decide
  simp [processLine, hline, hcomment, hlast]

theorem processLine_skip_noeq (cur : Str) (d : Data) (line : Str) (c : Char)
    (rest : Str)
    (hline : trim line = c :: rest)
    (hcomment : ¬(c = ';' ∨ c = '#'))
    (hheader : ¬(c = '[' ∧ (c :: rest).getLast? = some ']'))
    (heq : findChar '=' (c :: rest) = none) :
    processLine (cur, d) line = (cur, d) := by
  simp only [processLine, hline, if_neg hcomment, if_neg hheader, heq]

theorem processLine_section_cases (st : Str × Data) (line : Str) :
    (processLine st line).1 = st.1
    ∨ ∃ rest, trim line = '[' :: rest ∧ ('[' :: rest).getLast? = some ']'
        ∧ (processLine st line).1 = trim rest.dropLast := by
  unfold processLine
  split
  · left; rfl
  next c rest h =>
    split
    · left; rfl
    · split
      next hh =>
        obtain ⟨hc, hlast⟩ := hh
        subst hc
        right
        exact ⟨rest, h, hlast, rfl⟩
      · split
        · left; rfl
        · left; rfl

/-- The keys of an association list are distinct: the structural invariant
`std::unordered_map` maintains, under which each key maps to exactly one
value. -/
def NodupKeys {α : Type} (m : List (Str × α)) : Prop :=
  (m.map Prod.fst).Nodup

/-- Both maps of the nested `data_` structure have distinct keys. -/
def WFData (d : Data) : Prop :=
  NodupKeys d ∧ ∀ p ∈ d, NodupKeys p.2

theorem mem_keys_mapSet {α : Type} (m : List (Str × α)) (k a : Str) (v : α) :
    a ∈ (mapSet m k v).map Prod.fst ↔ a = k ∨ a ∈ m.map Prod.fst := by
  induction m with
  | nil => simp [mapSet]
  | cons p rest ih =>
    obtain ⟨k₀, v₀⟩ := p
    simp only [mapSet]
    split
    next h₀ =>
      subst h₀
      simp only [List.map_cons, List.mem_cons]
      tauto
    next h₀ =>
      simp only [List.map_cons, List.mem_cons, ih]
      tauto

theorem nodupKeys_mapSet {α : Type} (m : List (Str × α)) (k : Str) (v : α)
    (h : NodupKeys m) : NodupKeys (mapSet m k v) := by
  induction m with
  | nil => simp [NodupKeys, mapSet]
  | cons p rest ih =>
    obtain ⟨k₀, v₀⟩ := p
    simp only [NodupKeys, List.map_cons, List.nodup_cons] at h
    simp only [NodupKeys, mapSet]
    split
    next h₀ =>
      subst h₀
      simp only [List.map_cons, List.nodup_cons]
      exact h
    next h₀ =>
      simp only [List.map_cons, List.nodup_cons]
      refine ⟨?_, ih h.2⟩
      rw [mem_keys_mapSet]
      rintro (hk | hk)
      · exact h₀ hk
      · exact h.1 hk

theorem mem_mapSet {α : Type} (m : List (Str × α)) (k : Str) (v : α)
    (p : Str × α) (h : p ∈ mapSet m k v) : p = (k, v) ∨ p ∈ m := by
  induction m with
  | nil => simpa [mapSet] using h
  | cons q rest ih =>
    obtain ⟨k₀, v₀⟩ := q
    simp only [mapSet] at h
    split at h
    next h₀ =>
      subst h₀
      simp only [List.mem_cons] at h
      simp only [List.mem_cons]
      tauto
    next h₀ =>
      simp only [List.mem_cons] at h
      simp only [List.mem_cons]
      tauto

theorem mapGet_mem {α : Type} (m : List (Str × α)) (k : Str) (b : α)
    (h : mapGet m k = some b) : (k, b) ∈ m := by
  induction m with
  | nil => simp [mapGet] at h
  | cons q rest ih =>
    obtain ⟨k₀, v₀⟩ := q
    simp only [mapGet] at h
    split at h
    next h₀ =>
      subst h₀
      simp only [Option.some.injEq] at h
      subst h
      simp
    next h₀ =>
      simp [ih h]

theorem wf_dataSet (d : Data) (sec key v : Str) (h : WFData d) :
    WFData (dataSet d sec key v) := by
  obtain ⟨hkeys, hbuckets⟩ := h
  refine ⟨nodupKeys_mapSet _ _ _ hkeys, ?_⟩
  intro p hp
  rcases mem_mapSet _ _ _ _ hp with hp' | hp'
  · subst hp'
    refine nodupKeys_mapSet _ _ _ ?_
    cases hb : mapGet d sec with
    | none => simp [NodupKeys]
    | some b =>
      simpa using hbuckets (sec, b) (mapGet_mem _ _ _ hb)
  · exact hbuckets p hp'

theorem wf_processLine (st : Str × Data) (line : Str) (h : WFData st.2) :
    WFData (processLine st line).2 := by
  unfold processLine
  split
  · exact h
  · split
    · exact h
    · split
      · exact h
      · split
        · exact h
        · exact wf_dataSet _ _ _ _ h

theorem wf_foldl (lines : List Str) (st : Str × Data) (h : WFData st.2) :
    WFData (lines.foldl processLine st).2 := by
  induction lines generalizing st with
  | nil => exact h
  | cons l rest ih =>
    exact ih (processLine st l) (wf_processLine st l h)

/-- Claim C1: a line parsed as key=value (trimmed, non-empty, not a comment,
not a bracketed header, containing `=`) stores the trimmed key before the
first `=` and the trimmed remainder after it (further `=` retained),
truncated at the earliest `;` or `#` and trimmed again; `get` on the stored
key returns that value, and a file holding the single line `x=y=z` makes
`get("", "x")` return `y=z`. -/
theorem claim_C1_keyvalue_line (cur : Str) (d : Data) (line : Str) (c : Char)
    (rest : Str) (eq : Nat) (dflt : Str)
    (hline : trim line = c :: rest)
    (hcomment : ¬(c = ';' ∨ c = '#'))
    (hheader : ¬(c = '[' ∧ (c :: rest).getLast? = some ']'))
    (heq : findChar '=' (c :: rest) = some eq) :
    processLine (cur, d) line
      = (cur, dataSet d cur (trim ((c :: rest).take eq))
          (parseVal ((c :: rest).drop (eq + 1))))
    ∧ (Config.mk (processLine (cur, d) line).2).get cur
        (trim ((c :: rest).take eq)) dflt
      = parseVal ((c :: rest).drop (eq + 1))
    ∧ (∀ after : Str, parseVal after
        = match firstSemiHash (trim after) with
          | some p => trim ((trim after).take p)
          | none => trim after)
    ∧ (Config.loadFromFile ⟨[]⟩ [] (some (String.toList "x=y=z")) []).1.get
        [] (String.toList "x") [] = String.toList "y=z" := by
  have hp := processLine_keyvalue cur d line c rest eq hline hcomment hheader heq
  refine ⟨hp, ?_, ?_, by decide⟩
  · rw [hp]
    exact get_dataSet_self _ _ _ _ _
  · intro after
    simp only [parseVal, commentPos_eq_firstSemiHash]

theorem claim_C1_keyvalue_line_witness :
    (trim (String.toList "x=y=z") = 'x' :: String.toList "=y=z"
      ∧ findChar '=' ('x' :: String.toList "=y=z") = some 1)
    ∧ (Config.mk (processLine ([], []) (String.toList "x=y=z")).2).get []
        (trim (('x' :: String.toList "=y=z").take 1)) []
      = parseVal (('x' :: String.toList "=y=z").drop (1 + 1)) := by
  refine ⟨by decide, ?_⟩
  exact (claim_C1_keyvalue_line [] [] (String.toList "x=y=z") 'x'
    (String.toList "=y=z") 1 [] (by decide) (by decide) (by decide) (by decide)).2.1

/-- Claim C2: a trimmed line whose first character is `[` and last is `]`
sets the current section to the trimmed text between the brackets; every
other line leaves the current section unchanged, so a header applies to all
following key=value lines until the next header or end of file; the current
section starts as the empty string, and the file
`a=1\n[s]\nb = 2 ; note\n` yields `get("", "a") = "1"` and
`get("s", "b") = "2"`. -/
theorem claim_C2_section_header (cur : Str) (d : Data) (line : Str) (rest : Str)
    (hline : trim line = '[' :: rest)
    (hlast : ('[' :: rest).getLast? = some ']') :
    processLine (cur, d) line = (trim rest.dropLast, d)
    ∧ (∀ st : Str × Data, ∀ l : Str, (processLine st l).1 = st.1
        ∨ ∃ r, trim l = '[' :: r ∧ ('[' :: r).getLast? = some ']'
            ∧ (processLine st l).1 = trim r.dropLast)
    ∧ (∀ cfg : Config, ∀ path text err : Str,
        Config.loadFromFile cfg path (some text) err
          = ({ data := ((getLines text).foldl processLine ([], [])).2 }, err, true))
    ∧ ((Config.loadFromFile ⟨[]⟩ []
          (some (String.toList "a=1\n[s]\nb = 2 ; note\n")) []).1.get
        [] (String.toList "a") [] = String.toList "1")
    ∧ ((Config.loadFromFile ⟨[]⟩ []
          (some (String.toList "a=1\n[s]\nb = 2 ; note\n")) []).1.get
        (String.toList "s") (String.toList "b") [] = String.toList "2") := by
  refine ⟨processLine_header cur d line rest hline hlast,
    processLine_section_cases, fun cfg path text err => rfl, by decide, by decide⟩

theorem claim_C2_section_header_witness :
    (trim (String.toList "[s]") = '[' :: String.toList "s]"
      ∧ ('[' :: String.toList "s]").getLast? = some ']')
    ∧ processLine ([], []) (String.toList "[s]")
      = (trim ((String.toList "s]").dropLast), ([] : Data)) := by
  refine ⟨by decide, ?_⟩
  exact (claim_C2_section_header [] [] (String.toList "[s]")
    (String.toList "s]") (by decide) (by decide)).1

/-- Claim C3: loading a source that cannot be opened returns false, sets the
error message to the fixed text followed by the source path, and leaves the
mapping empty, so every subsequent `get` returns the supplied default,
whatever the store held before. -/
theorem claim_C3_open_failure (cfg : Config) (path err sec key dflt : Str) :
    (cfg.loadFromFile path none err).2.2 = false
    ∧ (cfg.loadFromFile path none err).2.1
        = String.toList "Could not open config file: " ++ path
    ∧ (cfg.loadFromFile path none err).1.data = []
    ∧ (cfg.loadFromFile path none err).1.get sec key dflt = dflt :=
  ⟨rfl, rfl, rfl, rfl⟩

/-- Claim C4: a source that opens always loads successfully, whatever its
content; a non-empty, non-comment, non-header line without `=` is skipped
with no change to the state, and the valid lines of the same file still
parse, so `get` on a fragment of a malformed line returns the default. -/
theorem claim_C4_forgiving (dflt : Str)
    (cur : Str) (d : Data) (line : Str) (c : Char) (rest : Str)
    (hline : trim line = c :: rest)
    (hcomment : ¬(c = ';' ∨ c = '#'))
    (hheader : ¬(c = '[' ∧ (c :: rest).getLast? = some ']'))
    (heq : findChar '=' (c :: rest) = none) :
    (∀ cfg : Config, ∀ path text err : Str,
        (Config.loadFromFile cfg path (some text) err).2.2 = true)
    ∧ processLine (cur, d) line = (cur, d)
    ∧ ((Config.loadFromFile ⟨[]⟩ []
          (some (String.toList "valid=ok\nno equals here\n")) []).1.get
        [] (String.toList "valid") [] = String.toList "ok")
    ∧ ((Config.loadFromFile ⟨[]⟩ []
          (some (String.toList "valid=ok\nno equals here\n")) []).1.get
        [] (String.toList "no equals here") dflt = dflt) := by
  refine ⟨fun cfg path text err => rfl,
    processLine_skip_noeq cur d line c rest hline hcomment hheader heq,
    by decide, rfl⟩

theorem claim_C4_forgiving_witness :
    (trim (String.toList "no equals here") = 'n' :: String.toList "o equals here"
      ∧ findChar '=' ('n' :: String.toList "o equals here") = none)
    ∧ processLine ([], []) (String.toList "no equals here") = ([], []) := by
  refine ⟨by decide, ?_⟩
  exact (claim_C4_forgiving [] [] [] (String.toList "no equals here") 'n'
    (String.toList "o equals here") (by decide) (by decide) (by decide)
    (by decide)).2.1

/-- Claim C5: storing twice to the same (section, key) keeps only the later
value; the parsed mapping always has distinct section names and distinct
keys within each section, so each pair maps to exactly one value; a file
repeating a key leaves the last line's value. -/
theorem claim_C5_last_wins (d : Data) (sec key v₁ v₂ dflt : Str) :
    (Config.mk (dataSet (dataSet d sec key v₁) sec key v₂)).get sec key dflt = v₂
    ∧ (∀ cfg : Config, ∀ path text err : Str,
        WFData (Config.loadFromFile cfg path (some text) err).1.data)
    ∧ (Config.loadFromFile ⟨[]⟩ [] (some (String.toList "k=1\nk=2\n")) []).1.get
        [] (String.toList "k") [] = String.toList "2" := by
  refine ⟨get_dataSet_self _ _ _ _ _, ?_, by decide⟩
  intro cfg path text err
  exact wf_foldl (getLines text) ([], ([] : Data)) ⟨by simp [NodupKeys], by simp⟩

/-- Claim C6: loading B after loading A gives exactly the outcome of loading
B from any prior state, because every load clears the mapping before
populating; in particular all `get` results after the two loads depend only
on B. -/
theorem claim_C6_replacement (cfg : Config) (pA pB errA errB : Str)
    (cA cB : Option Str) (sec key dflt : Str) :
    Config.loadFromFile (cfg.loadFromFile pA cA errA).1 pB cB errB
      = cfg.loadFromFile pB cB errB
    ∧ ((cfg.loadFromFile pA cA errA).1.loadFromFile pB cB errB).1.get sec key dflt
      = (cfg.loadFromFile pB cB errB).1.get sec key dflt := by
  constructor <;> rfl

/-- Claim C7: loading the same readable source twice in a row leaves the
store observationally identical to loading it once: the resulting configs
are equal and every `get` agrees. -/
theorem claim_C7_idempotent (cfg : Config) (path text err err' sec key dflt : Str) :
    ((cfg.loadFromFile path (some text) err).1.loadFromFile path (some text) err').1
      = (cfg.loadFromFile path (some text) err).1
    ∧ ((cfg.loadFromFile path (some text) err).1.loadFromFile path (some text) err').1.get
        sec key dflt
      = (cfg.loadFromFile path (some text) err).1.get sec key dflt := by
  constructor <;> rfl

/-- A value is stored for a (section, key) pair: the section lookup yields a
bucket in which the key lookup yields the value. -/
def Stored (d : Data) (sec key v : Str) : Prop :=
  ∃ b, mapGet d sec = some b ∧ mapGet b key = some v

/-- Claim C8: `get` returns the value stored for exactly the given
(section, key) pair when one exists and otherwise returns the supplied
default unchanged; the lookup is exact matching on the unmodified arguments
and does not touch the data. -/
theorem claim_C8_get_exact (d : Data) (sec key dflt : Str) :
    (∀ v, Stored d sec key v → (Config.mk d).get sec key dflt = v)
    ∧ ((∀ v, ¬ Stored d sec key v) → (Config.mk d).get sec key dflt = dflt) := by
  constructor
  · rintro v ⟨b, hb, hv⟩
    simp [Config.get, hb, hv]
  · intro hmiss
    simp only [Config.get]
    split
    next => rfl
    next b hb =>
      split
      next => rfl
      next v hv => exact absurd ⟨b, hb, hv⟩ (hmiss v)

theorem claim_C8_get_exact_witness :
    Stored [(String.toList "s", [(String.toList "k", String.toList "v")])]
      (String.toList "s") (String.toList "k") (String.toList "v")
    ∧ (Config.mk [(String.toList "s", [(String.toList "k", String.toList "v")])]).get
        (String.toList "s") (String.toList "k") [] = String.toList "v" := by
  have hst : Stored [(String.toList "s", [(String.toList "k", String.toList "v")])]
      (String.toList "s") (String.toList "k") (String.toList "v") :=
    ⟨[(String.toList "k", String.toList "v")], by decide, by decide⟩
  exact ⟨hst, (claim_C8_get_exact _ (String.toList "s") (String.toList "k") []).1
    (String.toList "v") hst⟩

/-- Claim C9: a line whose trimmed form begins with `=` stores its value
under the empty key in the current section — an empty key is not treated as
malformed — and `get(section, "")` returns that value. -/
theorem claim_C9_empty_key (cur : Str) (d : Data) (line : Str) (rest dflt : Str)
    (hline : trim line = '=' :: rest) :
    processLine (cur, d) line = (cur, dataSet d cur [] (parseVal rest))
    ∧ (Config.mk (processLine (cur, d) line).2).get cur [] dflt = parseVal rest := by
  have hcomment : ¬('=' = ';' ∨ '=' = '#') := by decide
  have hheader : ¬('=' = '[' ∧ ('=' :: rest).getLast? = some ']') := by
    rintro ⟨h, -⟩
    exact absurd h (by decide)
  have heq : findChar '=' ('=' :: rest) = some 0 := by simp [findChar]
  have hp := processLine_keyvalue cur d line '=' rest 0 hline hcomment hheader heq
  have h0 : trim (('=' :: rest).take 0) = [] := rfl
  have h1 : ('=' :: rest).drop (0 + 1) = rest := rfl
  rw [h0, h1] at hp
  refine ⟨hp, ?_⟩
  rw [hp]
  exact get_dataSet_self _ _ _ _ _

theorem claim_C9_empty_key_witness :
    trim (String.toList "  = v") = '=' :: String.toList " v"
    ∧ (Config.mk (processLine ([], []) (String.toList "  = v")).2).get [] [] []
      = parseVal (String.toList " v") := by
  refine ⟨by decide, ?_⟩
  exact (claim_C9_empty_key [] [] (String.toList "  = v") (String.toList " v") []
    (by decide)).2

/-- Claim C10: inline-comment stripping never applies to header lines: a
trimmed line that begins with `[`, does not end with `]`, and contains no
`=` is skipped entirely, leaving the current section unchanged, so a header
followed by a trailing comment introduces no section. -/
theorem claim_C10_header_trailing_comment (cur : Str) (d : Data)
    (line rest dflt : Str)
    (hline : trim line = '[' :: rest)
    (hlast : ('[' :: rest).getLast? ≠ some ']')
    (heq : findChar '=' ('[' :: rest) = none) :
    processLine (cur, d) line = (cur, d)
    ∧ ((Config.loadFromFile ⟨[]⟩ []
          (some (String.toList "[s] ; comment\nk=v\n")) []).1.get
        [] (String.toList "k") [] = String.toList "v")
    ∧ ((Config.loadFromFile ⟨[]⟩ []
          (some (String.toList "[s] ; comment\nk=v\n")) []).1.get
        (String.toList "s") (String.toList "k") dflt = dflt) := by
  have hcomment : ¬('[' = ';' ∨ '[' = '#') := by decide
  have hheader : ¬('[' = '[' ∧ ('[' :: rest).getLast? = some ']') := by
    rintro ⟨-, h⟩
    exact hlast h
  exact ⟨processLine_skip_noeq cur d line '[' rest hline hcomment hheader heq,
    by decide, rfl⟩

theorem claim_C10_header_trailing_comment_witness :
    (trim (String.toList "[s] ; comment") = '[' :: String.toList "s] ; comment"
      ∧ ('[' :: String.toList "s] ; comment").getLast? ≠ some ']'
      ∧ findChar '=' ('[' :: String.toList "s] ; comment") = none)
    ∧ processLine ([], []) (String.toList "[s] ; comment") = ([], []) := by
  refine ⟨⟨by decide, by decide, by decide⟩, ?_⟩
  exact (claim_C10_header_trailing_comment [] [] (String.toList "[s] ; comment")
    (String.toList "s] ; comment") [] (by decide) (by decide) (by decide)).1

